import Mathlib

/-!
Verification of the ALT-Coin ledger engine (src/blockchain.js).

The JavaScript classes are shallowly embedded: stateful code becomes
explicit state passing over `ChainState` (chain, segregated-signature
file, mempool file), the external cryptographic primitives (crypto-js
SHA256, elliptic secp256k1) become an `Env` of function parameters, and
fallible code returns a state plus an optional `JsError` (or `Except`).
JavaScript string coercions (`null` printing as "null", arrays joining
with ",", `JSON.stringify`) are modelled explicitly; `JSON.stringify` of
a string is modelled without escape sequences, which is exact for the
hex-digit signature strings the program produces.
-/

/-- Errors thrown by the JavaScript code. `typeError` stands for the
TypeError the runtime raises when a missing method or property of
`undefined` is accessed; `outOfFuel` is the embedding's marker for a
proof-of-work loop that has not yet terminated within the given fuel. -/
inductive JsError where
  | malformedTransaction
  | noSignature
  | invalidTransaction
  | insufficientBalance
  | signingError
  | typeError
  | outOfFuel
deriving DecidableEq, Repr

/-- External primitives of blockchain.js: crypto-js `SHA256` and the
elliptic key operations (`keyFromPrivate` / `getPublic` is `pub`,
`key.sign(...).toDER('hex')` is `sign`, `keyFromPublic(...).verify` is
`verify`). A private key is its hex string; a public identity is the hex
string `getPublic` derives from it. -/
structure Env where
  sha256 : String → String
  sign : String → String → String
  pub : String → String
  verify : String → String → String → Bool

/-- Transaction of blockchain.js: `constructor(fromAddress, toAddress,
amount)` stores the three fields plus a `Date.now()` timestamp.
`fromAddress` is `null` (here `none`) on mining-reward transactions. -/
structure Transaction where
  fromAddress : Option String
  toAddress : String
  amount : Int
  timestamp : Int
deriving DecidableEq, Repr

/-- Constructor `new Transaction(fromAddress, toAddress, amount)`; the
call sites in `minePendingTransactions` pass a fourth argument
`tx.timestamp`, which the three-parameter constructor ignores — the
stored timestamp is always the current `Date.now()`, passed here as
`now`. -/
def Transaction.mkJs (fromAddress : Option String) (toAddress : String)
    (amount : Int) (now : Int) : Transaction :=
  { fromAddress := fromAddress, toAddress := toAddress, amount := amount, timestamp := now }

/-- String coercion of a JS value that is a string or `null`: `null`
concatenates as "null". -/
def jsShowOpt : Option String → String
  | none => "null"
  | some s => s

/-- Transaction.calculateHash: `SHA256(this.fromAddress + this.toAddress
+ this.amount + this.timestamp).toString()`. -/
def Transaction.calculateHash (env : Env) (tx : Transaction) : String :=
  env.sha256 (jsShowOpt tx.fromAddress ++ tx.toAddress ++ toString tx.amount ++ toString tx.timestamp)

/-- JS falsiness of a string: `!s` holds exactly for the empty string. -/
def jsFalsy (s : String) : Bool := s == ""

/-- JS falsiness of a string-or-null value. -/
def jsFalsyOpt : Option String → Bool
  | none => true
  | some s => jsFalsy s

/-- Transaction.isValid(signature): reward transactions (`fromAddress ===
null`) are unconditionally valid; a falsy signature throws; otherwise the
signature is verified against `fromAddress` over `calculateHash()`. -/
def Transaction.isValid (env : Env) (tx : Transaction) (signature : String) :
    Except JsError Bool :=
  match tx.fromAddress with
  | none => .ok true
  | some f =>
    if signature == "" then .error .noSignature
    else .ok (env.verify f (Transaction.calculateHash env tx) signature)

/-- JSON.stringify of a string value (quote-wrapped; the signature and
hash strings the program feeds it contain no characters that JSON
escapes). -/
def jsonStr (s : String) : String := "\x22" ++ s ++ "\x22"

/-- JSON.stringify of a string-or-null field value. -/
def jsonOpt : Option String → String
  | none => "null"
  | some s => jsonStr s

/-- JSON.stringify of one Transaction object, fields in insertion order. -/
def txJson (tx : Transaction) : String :=
  "\x7b\x22fromAddress\x22:" ++ jsonOpt tx.fromAddress ++
  ",\x22toAddress\x22:" ++ jsonStr tx.toAddress ++
  ",\x22amount\x22:" ++ toString tx.amount ++
  ",\x22timestamp\x22:" ++ toString tx.timestamp ++ "\x7d"

/-- JSON.stringify of the transactions array of a block. -/
def txsJson (txs : List Transaction) : String :=
  "[" ++ String.intercalate "," (txs.map txJson) ++ "]"

/-- Coercion of a JS array of strings to a string: elements joined by
",". Used by `txSignatures + nonce` inside the block-hash expressions. -/
def jsArrayStr (xs : List String) : String := String.intercalate "," xs

/-- Coercion of a JS array of strings-or-nulls to a string: a `null`
element joins as the empty string. -/
def jsArrayStrOpt (xs : List (Option String)) : String :=
  String.intercalate "," (xs.map (fun s => s.getD ""))

/-- Record stored in signatures.json by the SegWit scheme: class
`Signature(blockHash, signatures)` of blockchain.js. -/
structure SigRecord where
  blockHash : String
  signatures : List String
deriving DecidableEq, Repr

/-- Block of blockchain.js: `previousHash`, `timestamp` (its JS string
coercion), the transaction list, `nonce`, the stored `hash`, and the set
of hashes inserted into the block's Bloom filter at construction (the
Merkle tree field is built from the same hashes and no claim mentions
it). -/
structure Block where
  previousHash : String
  timestamp : String
  transactions : List Transaction
  nonce : Nat
  hash : String
  bloomInserted : List String
deriving DecidableEq, Repr

/-- Body string fed to SHA256 by the three block-hash expressions:
`this.timestamp + JSON.stringify(this.transactions) + this.previousHash +
JSON.stringify(<signature-array> + <nonce>)`, where the last operand is
the JS string coercion of the array concatenated with the nonce's
digits, then JSON-quoted. -/
def blockHashInput (timestamp : String) (transactions : List Transaction)
    (previousHash : String) (sigPart : String) : String :=
  timestamp ++ txsJson transactions ++ previousHash ++ jsonStr sigPart

/-- Block constructor: sets `nonce = 0`, builds the Bloom filter over the
transactions' hashes, computes `hash` over the *unfiltered*
`txSignatures` array, then filters out `null` signatures and appends a
`Signature(hash, filtered)` record to the signatures.json pool. Returns
the block together with the updated pool. -/
def Block.mkJs (env : Env) (timestamp : String) (transactions : List Transaction)
    (txSignatures : List (Option String)) (previousHash : String)
    (pool : List SigRecord) : Block × List SigRecord :=
  let hash := env.sha256 (blockHashInput timestamp transactions previousHash
    (jsArrayStrOpt txSignatures ++ toString (0 : Nat)))
  let filtered := txSignatures.filterMap id
  let block : Block :=
    { previousHash := previousHash, timestamp := timestamp,
      transactions := transactions, nonce := 0, hash := hash,
      bloomInserted := transactions.map (Transaction.calculateHash env) }
  (block, pool ++ [{ blockHash := hash, signatures := filtered }])

/-- Lookup `signaturesPool.find(sig => sig.blockHash === this.hash)`. -/
def findSigRecord (pool : List SigRecord) (hash : String) : Option SigRecord :=
  pool.find? (fun r => r.blockHash == hash)

/-- Block.calculateHash: loads the signature pool, finds the record keyed
by the block's current `hash`, and recomputes the hash over that
record's (null-filtered) signatures and the current nonce. When no
record matches, the JS code reads `.signatures` of `undefined` and the
runtime raises a TypeError. -/
def Block.calculateHash (env : Env) (b : Block) (pool : List SigRecord) :
    Except JsError String :=
  match findSigRecord pool b.hash with
  | none => .error .typeError
  | some r => .ok (env.sha256 (blockHashInput b.timestamp b.transactions b.previousHash
      (jsArrayStr r.signatures ++ toString b.nonce)))

/-- Replacement of the `blockHash` field of the first pool record whose
`blockHash` equals `old` — the mutation `blockSignetures.blockHash =
this.hash` performed on the record `find` returned, followed by saving
the pool. -/
def replaceFirstHash : List SigRecord → String → String → List SigRecord
  | [], _, _ => []
  | r :: rs, old, new =>
    if r.blockHash == old then { r with blockHash := new } :: rs
    else r :: replaceFirstHash rs old new

/-- Block.UpadateHash(newNonce) (name as in the source): finds the pool
record keyed by the current hash, recomputes the hash with `newNonce`,
stores it in the block and in that record, and saves the pool. The
block's `nonce` field itself is not changed here (the caller `mineBlock`
increments it separately). -/
def Block.UpadateHash (env : Env) (b : Block) (newNonce : Nat)
    (pool : List SigRecord) : Except JsError (Block × List SigRecord) :=
  match findSigRecord pool b.hash with
  | none => .error .typeError
  | some r =>
    let newHash := env.sha256 (blockHashInput b.timestamp b.transactions b.previousHash
      (jsArrayStr r.signatures ++ toString newNonce))
    .ok ({ b with hash := newHash }, replaceFirstHash pool b.hash newHash)

/-- Loop condition of `mineBlock`: `this.hash.substring(0, difficulty)
=== Array(difficulty + 1).join('0')`, i.e. the first `difficulty`
characters of the hash are all '0'. -/
def hashMeetsDifficulty (hash : String) (difficulty : Nat) : Bool :=
  hash.toList.take difficulty == List.replicate difficulty '0'

/-- Block.mineBlock(difficulty), with explicit fuel for the unbounded
`while` loop: while the hash's `difficulty`-prefix is not all zeros,
call `UpadateHash(this.nonce + 1)` and then increment `this.nonce`.
Running out of fuel (the loop not having terminated yet) is reported as
`outOfFuel`. -/
def Block.mineBlockFuel (env : Env) : Nat → Nat → Block → List SigRecord →
    Except JsError (Block × List SigRecord)
  | 0, difficulty, b, pool =>
    if hashMeetsDifficulty b.hash difficulty then .ok (b, pool)
    else .error .outOfFuel
  | fuel + 1, difficulty, b, pool =>
    if hashMeetsDifficulty b.hash difficulty then .ok (b, pool)
    else
      match Block.UpadateHash env b (b.nonce + 1) pool with
      | .error e => .error e
      | .ok (b', pool') =>
        Block.mineBlockFuel env fuel difficulty { b' with nonce := b'.nonce + 1 } pool'

/-- Count of leading '0' characters of a hexadecimal digest. -/
def countLeadingZeros : List Char → Nat
  | [] => 0
  | c :: cs => if c = '0' then countLeadingZeros cs + 1 else 0

theorem countLeadingZeros_of_take_replicate :
    ∀ (d : Nat) (l : List Char), l.take d = List.replicate d '0' →
      d ≤ countLeadingZeros l := by
  intro d
  induction d with
  | zero => intro l _; exact Nat.zero_le _
  | succ n ih =>
    intro l h
    cases l with
    | nil => simp [List.replicate_succ] at h
    | cons c cs =>
      simp only [List.take_succ_cons, List.replicate_succ, List.cons.injEq] at h
      simp only [countLeadingZeros, h.1, if_pos rfl]
      exact Nat.succ_le_succ (ih cs h.2)

/-- Blocks returned by a terminating `mineBlockFuel` satisfy the loop's
negated condition. -/
theorem mineBlockFuel_meets (env : Env) :
    ∀ (fuel difficulty : Nat) (b : Block) (pool : List SigRecord)
      (b' : Block) (pool' : List SigRecord),
      Block.mineBlockFuel env fuel difficulty b pool = .ok (b', pool') →
      hashMeetsDifficulty b'.hash difficulty = true := by
  intro fuel
  induction fuel with
  | zero =>
    intro difficulty b pool b' pool' h
    simp only [Block.mineBlockFuel] at h
    by_cases hc : hashMeetsDifficulty b.hash difficulty
    · rw [if_pos hc] at h
      cases h
      exact hc
    · rw [if_neg hc] at h
      cases h
  | succ n ih =>
    intro difficulty b pool b' pool' h
    simp only [Block.mineBlockFuel] at h
    by_cases hc : hashMeetsDifficulty b.hash difficulty
    · rw [if_pos hc] at h
      cases h
      exact hc
    · rw [if_neg hc] at h
      cases hu : Block.UpadateHash env b (b.nonce + 1) pool with
      | error e => rw [hu] at h; cases h
      | ok p =>
        rw [hu] at h
        exact ih difficulty _ _ b' pool' h

/-- Mempool entry as serialized by `addTransaction` into
transactions.json: the transaction's data fields plus its content hash. -/
structure MempoolTx where
  fromAddress : String
  toAddress : String
  amount : Int
  timestamp : Int
  hash : String
deriving DecidableEq, Repr

/-- Persisted mempool file: a list of pending transaction entries and the
parallel, positionally indexed list of their signatures. -/
structure Mempool where
  transactions : List MempoolTx
  signatures : List String
deriving DecidableEq, Repr

/-- Whole mutable state a BlockChain instance acts on: the chain array,
the signatures.json pool, and the transactions.json mempool. -/
structure ChainState where
  chain : List Block
  pool : List SigRecord
  mempool : Mempool
deriving DecidableEq, Repr

/-- BlockChain constructor constant `this.difficulty = 1`. -/
def chainDifficulty : Nat := 1

/-- BlockChain constructor constant `this.miningReward = 50`. -/
def miningReward : Int := 50

/-- BlockChain constructor constant `this.baseFee = 2`. -/
def baseFee : Int := 2

/-- BlockChain constructor constant `this.minerFee = 3`. -/
def minerFee : Int := 3

/-- BlockChain.createGenesisBlock: `new Block("01/09/2009", [], [], "0")`. -/
def createGenesisBlock (env : Env) (pool : List SigRecord) : Block × List SigRecord :=
  Block.mkJs env "01/09/2009" [] [] "0" pool

/-- BlockChain constructor: the chain starts as `[genesis]`; the mempool
file, when absent, reads back as empty. -/
def ChainState.init (env : Env) : ChainState :=
  let (g, pool) := createGenesisBlock env []
  { chain := [g], pool := pool, mempool := { transactions := [], signatures := [] } }

/-- BlockChain.getBalanceOfAddress: starts from the fixed allowance 300,
then for every transaction of every chain block and then of the mempool,
subtracts `amount + baseFee + minerFee` when the address is the sender
and adds `amount` when it is the recipient (the JS `mempool !== null`
guard is always true, `loadMempool` never returns null). -/
def getBalanceOfAddress (st : ChainState) (address : String) : Int :=
  let afterChain := st.chain.foldl (fun balance block =>
    block.transactions.foldl (fun balance tx =>
      let balance := if tx.fromAddress == some address
        then balance - (tx.amount + baseFee + minerFee) else balance
      if tx.toAddress == address then balance + tx.amount else balance) balance) 300
  st.mempool.transactions.foldl (fun balance tx =>
    let balance := if tx.fromAddress == address
      then balance - (tx.amount + baseFee + minerFee) else balance
    if tx.toAddress == address then balance + tx.amount else balance) afterChain

/-- BlockChain.addTransaction(transaction, senderKey): address presence
check, sign the content hash with `senderKey`, validate, balance check,
then push the serialized transaction and the signature onto the two
mempool lists and save. Returns the resulting state (unchanged when an
error is thrown, since the file is saved only at the end) and the error,
if any. -/
def addTransaction (env : Env) (st : ChainState) (tx : Transaction) (senderKey : String) :
    ChainState × Option JsError :=
  if jsFalsyOpt tx.fromAddress || jsFalsy tx.toAddress then
    (st, some .malformedTransaction)
  else
    let hash := Transaction.calculateHash env tx
    let signature := env.sign senderKey hash
    match Transaction.isValid env tx signature with
    | .error e => (st, some e)
    | .ok false => (st, some .invalidTransaction)
    | .ok true =>
      let senderBalance := getBalanceOfAddress st (tx.fromAddress.getD "")
      let totalCost := tx.amount + baseFee + minerFee
      if senderBalance < totalCost then
        (st, some .insufficientBalance)
      else
        let txData : MempoolTx :=
          { fromAddress := tx.fromAddress.getD "", toAddress := tx.toAddress,
            amount := tx.amount, timestamp := tx.timestamp,
            hash := Transaction.calculateHash env tx }
        ({ st with mempool :=
            { transactions := st.mempool.transactions ++ [txData],
              signatures := st.mempool.signatures ++ [signature] } }, none)

/-- Reward transaction `new Transaction(null, miningRewardAddress,
minerReward)` built by `minePendingTransactions`. -/
def rewardTransaction (addr : String) (batchSize : Nat) (now : Int) : Transaction :=
  { fromAddress := none, toAddress := addr,
    amount := miningReward + minerFee * (batchSize : Int), timestamp := now }

/-- BlockChain.minePendingTransactions(miningRewardAddress): takes the
first 3 mempool entries (file entries are plain objects, so each goes
through the three-parameter Transaction constructor, which restamps its
timestamp with `Date.now()`, here `now`), sums `minerFee` per batch
entry, appends the reward transaction and a null signature, constructs a
block linked to the chain tip, mines it, appends it to the chain, drops
the 3 processed entries from both mempool lists and saves. On a mining
error the signatures.json pool written by the Block constructor
persists but chain and mempool are unchanged. -/
def minePendingTransactions (env : Env) (st : ChainState) (addr : String)
    (now : Int) (fuel : Nat) : ChainState × Option JsError :=
  match st.chain.getLast? with
  | none => (st, some .typeError)
  | some latest =>
    let transactionsToMine := (st.mempool.transactions.take 3).map
      (fun m => Transaction.mkJs (some m.fromAddress) m.toAddress m.amount now)
    let signaturesToInclude : List (Option String) :=
      (st.mempool.signatures.take 3).map some
    let totalPriorityFees : Int := transactionsToMine.foldl (fun acc _ => acc + minerFee) 0
    let rewardTx : Transaction :=
      { fromAddress := none, toAddress := addr,
        amount := miningReward + totalPriorityFees, timestamp := now }
    let (block, pool') := Block.mkJs env (toString now)
      (transactionsToMine ++ [rewardTx]) (signaturesToInclude ++ [none])
      latest.hash st.pool
    match Block.mineBlockFuel env fuel chainDifficulty block pool' with
    | .error e => ({ st with pool := pool' }, some e)
    | .ok (mined, pool'') =>
      ({ chain := st.chain ++ [mined], pool := pool'',
         mempool := { transactions := st.mempool.transactions.drop 3,
                      signatures := st.mempool.signatures.drop 3 } }, none)

/-- Call `this.getFullTransactions(currentBlock)` made by `isChainValid`:
no such method is defined anywhere on BlockChain in blockchain.js, so
the JS runtime raises "this.getFullTransactions is not a function". -/
def getFullTransactions (st : ChainState) (b : Block) : Except JsError (List Transaction) :=
  .error .typeError

/-- Loop body of BlockChain.isChainValid over consecutive block pairs
(previous, current): fetch the full transactions (a call to a missing
method), check `hasValidTransactions` (also missing on this Block
class), then the two hash comparisons. -/
def isChainValidLoop (env : Env) (st : ChainState) :
    Block → List Block → Except JsError Bool
  | _, [] => .ok true
  | prev, current :: rest => do
    let _ ← getFullTransactions st current
    let recomputed ← Block.calculateHash env current st.pool
    if current.hash != recomputed then pure false
    else if current.previousHash != prev.hash then pure false
    else isChainValidLoop env st current rest

/-- BlockChain.isChainValid: iterate from index 1; each iteration begins
with the `getFullTransactions` call, so any chain holding a block after
genesis raises a TypeError before a boolean can be produced. -/
def isChainValid (env : Env) (st : ChainState) : Except JsError Bool :=
  match st.chain with
  | [] => .ok true
  | g :: rest => isChainValidLoop env st g rest

/-- BlockChain.searchTransaction(hash), parameterized by the bloom-filter
library's `test` operation: skip any block whose filter tests negative,
scan the transactions of a block that tests positive, return the first
exact match, else keep scanning later blocks; `none` when the chain is
exhausted. -/
def searchTransaction (test : List String → String → Bool) (env : Env) :
    List Block → String → Option Transaction
  | [], _ => none
  | b :: rest, h =>
    if test b.bloomInserted h then
      match b.transactions.find? (fun tx => Transaction.calculateHash env tx == h) with
      | some tx => some tx
      | none => searchTransaction test env rest h
    else searchTransaction test env rest h

/-- LightWallet of blockchain.js: address and the local transaction
list. -/
structure LightWallet where
  address : String
  transactions : List Transaction
deriving DecidableEq, Repr

/-- LightWallet.syncTransaction(transaction): pushes the transaction onto
the local list unconditionally. -/
def LightWallet.syncTransaction (w : LightWallet) (tx : Transaction) : LightWallet :=
  { w with transactions := w.transactions ++ [tx] }

/-- Transaction of the earlier variant (blockChain4.js, in
src/unnamed/part_003): same data fields plus the stored `signature`. -/
structure TransactionV4 where
  fromAddress : Option String
  toAddress : String
  amount : Int
  timestamp : Int
  signature : Option String
deriving DecidableEq, Repr

/-- Transaction.calculateHash of the earlier variant (same formula). -/
def TransactionV4.calculateHash (env : Env) (tx : TransactionV4) : String :=
  env.sha256 (jsShowOpt tx.fromAddress ++ tx.toAddress ++ toString tx.amount ++ toString tx.timestamp)

/-- Transaction.signTransaction(signingKey) of the earlier variant:
throws "You cannot sign transactions for other wallets" when the key's
public identity is not strictly equal to `fromAddress` (a reward
transaction's `null` is never equal to the hex string); otherwise signs
the content hash and stores the DER signature. -/
def TransactionV4.signTransaction (env : Env) (tx : TransactionV4) (signingKey : String) :
    Except JsError TransactionV4 :=
  if some (env.pub signingKey) != tx.fromAddress then .error .signingError
  else .ok { tx with signature := some (env.sign signingKey (TransactionV4.calculateHash env tx)) }

/-- LightWallet of the earlier variant. -/
structure LightWalletV4 where
  address : String
  transactions : List TransactionV4
deriving DecidableEq, Repr

/-- LightWallet.receiveTransaction(transaction) of the earlier variant:
stores the transaction iff its `toAddress` or `fromAddress` strictly
equals this wallet's address. -/
def LightWalletV4.receiveTransaction (w : LightWalletV4) (tx : TransactionV4) : LightWalletV4 :=
  if tx.toAddress == w.address || tx.fromAddress == some w.address then
    { w with transactions := w.transactions ++ [tx] }
  else w

/-- Toy instantiation of the external primitives whose hash is the
constant "0": with it the proof-of-work condition holds immediately,
letting concrete ledger states be evaluated. -/
def envZero : Env :=
  { sha256 := fun _ => "0",
    sign := fun k h => "S" ++ k ++ h,
    pub := fun k => "P" ++ k,
    verify := fun p h s => s == "S" ++ p.drop 1 ++ h }

/-- Toy instantiation whose hash is the identity on the body string,
making the hashed payloads directly visible in concrete computations. -/
def envId : Env :=
  { sha256 := fun s => s,
    sign := fun k h => "S" ++ k ++ h,
    pub := fun k => "P" ++ k,
    verify := fun p h s => s == "S" ++ p.drop 1 ++ h }

/-- C2: for every block and every difficulty ≥ 1, whenever
`Block.mineBlock(difficulty)` terminates, the block's stored hash has at
least `difficulty` leading zero hexadecimal digits. -/
theorem mineBlock_leading_zeros (env : Env) (fuel difficulty : Nat) (b : Block)
    (pool : List SigRecord) (b' : Block) (pool' : List SigRecord)
    (hd : 1 ≤ difficulty)
    (h : Block.mineBlockFuel env fuel difficulty b pool = .ok (b', pool')) :
    difficulty ≤ countLeadingZeros b'.hash.toList := by
  have hm := mineBlockFuel_meets env fuel difficulty b pool b' pool' h
  simp only [hashMeetsDifficulty, beq_iff_eq] at hm
  exact countLeadingZeros_of_take_replicate difficulty b'.hash.toList hm

/-- Block mined in the `envZero` world: the constant hash "0" meets
difficulty 1 at once. -/
def demoBlockZero : Block := (Block.mkJs envZero "T" [] [] "0" []).1

/-- Witness for C2 at a concrete input. -/
theorem mineBlock_leading_zeros_witness :
    Block.mineBlockFuel envZero 0 1 demoBlockZero [] = .ok (demoBlockZero, []) ∧
    1 ≤ countLeadingZeros demoBlockZero.hash.toList :=
  ⟨by rfl, mineBlock_leading_zeros envZero 0 1 demoBlockZero [] demoBlockZero []
    (by decide) (by rfl)⟩

/-- Ledger state produced by one `minePendingTransactions("A")` call on a
fresh `envZero` ledger with an empty mempool: a two-block chain whose
stored hashes, recomputed hashes and previousHash links all agree. -/
def demoMinedState : ChainState :=
  (minePendingTransactions envZero (ChainState.init envZero) "A" 7 0).1

/-- C1: `isChainValid` cannot return true on a valid multi-block chain:
its loop body begins by calling `this.getFullTransactions` and
`currentBlock.hasValidTransactions`, neither of which is defined in
blockchain.js, so on this fully valid two-block ledger (hashes recompute
to the stored values, links match, every embedded transaction verifies)
the call raises a TypeError instead of producing a boolean. -/
theorem isChainValid_raises_typeError :
    isChainValid envZero demoMinedState = .error .typeError ∧
    demoMinedState.chain.length = 2 ∧
    demoMinedState.chain.map (fun b => Block.calculateHash envZero b demoMinedState.pool)
      = demoMinedState.chain.map (fun b => .ok b.hash) ∧
    demoMinedState.chain.map Block.previousHash
      = "0" :: (demoMinedState.chain.dropLast.map Block.hash) ∧
    demoMinedState.chain.map (fun b => b.transactions.map (fun t => Transaction.isValid envZero t ""))
      = [[], [.ok true]] := by
  refine ⟨by rfl, by rfl, by rfl, by rfl, by rfl⟩

/-- Net effect of one transaction on one address's derived balance:
`+amount` when recipient, `-(amount + baseFee + minerFee)` when sender. -/
def txDelta (address : String) (fromAddress : Option String) (toAddress : String)
    (amount : Int) : Int :=
  (if toAddress == address then amount else 0)
  - (if fromAddress == some address then amount + baseFee + minerFee else 0)

theorem foldl_balance_tx (a : String) :
    ∀ (l : List Transaction) (i : Int),
      l.foldl (fun balance tx =>
        let balance := if tx.fromAddress == some a
          then balance - (tx.amount + baseFee + minerFee) else balance
        if tx.toAddress == a then balance + tx.amount else balance) i
      = i + (l.map (fun tx => txDelta a tx.fromAddress tx.toAddress tx.amount)).sum := by
  intro l
  induction l with
  | nil => intro i; simp
  | cons x xs ih =>
    intro i
    simp only [List.foldl_cons, List.map_cons, List.sum_cons]
    rw [ih]
    unfold txDelta
    by_cases h1 : x.fromAddress == some a <;> by_cases h2 : x.toAddress == a <;>
      simp [h1, h2] <;> ring

theorem foldl_balance_mtx (a : String) :
    ∀ (l : List MempoolTx) (i : Int),
      l.foldl (fun balance tx =>
        let balance := if tx.fromAddress == a
          then balance - (tx.amount + baseFee + minerFee) else balance
        if tx.toAddress == a then balance + tx.amount else balance) i
      = i + (l.map (fun tx => txDelta a (some tx.fromAddress) tx.toAddress tx.amount)).sum := by
  intro l
  induction l with
  | nil => intro i; simp
  | cons x xs ih =>
    intro i
    simp only [List.foldl_cons, List.map_cons, List.sum_cons]
    rw [ih]
    unfold txDelta
    by_cases h1 : x.fromAddress == a <;> by_cases h2 : x.toAddress == a <;>
      simp [h1, h2] <;> ring

theorem foldl_balance_chain (a : String) :
    ∀ (chain : List Block) (i : Int),
      chain.foldl (fun balance block =>
        block.transactions.foldl (fun balance tx =>
          let balance := if tx.fromAddress == some a
            then balance - (tx.amount + baseFee + minerFee) else balance
          if tx.toAddress == a then balance + tx.amount else balance) balance) i
      = i + (chain.map (fun b =>
          (b.transactions.map (fun tx => txDelta a tx.fromAddress tx.toAddress tx.amount)).sum)).sum := by
  intro chain
  induction chain with
  | nil => intro i; simp
  | cons b bs ih =>
    intro i
    simp only [List.foldl_cons, List.map_cons, List.sum_cons]
    rw [ih, foldl_balance_tx]
    ring

/-- Derived balance stated as the spec's sum: the fixed allowance 300
plus the per-transaction deltas over every confirmed block and every
pending mempool entry. -/
def specBalance (st : ChainState) (a : String) : Int :=
  300 + (st.chain.map (fun b =>
      (b.transactions.map (fun tx => txDelta a tx.fromAddress tx.toAddress tx.amount)).sum)).sum
    + (st.mempool.transactions.map (fun tx => txDelta a (some tx.fromAddress) tx.toAddress tx.amount)).sum

/-- C3: `getBalanceOfAddress` equals the fixed allowance (300) plus the
signed contributions of every transaction across all confirmed blocks
and all pending mempool entries; consequently a block carrying exactly
two transfers of 5 each from A to B raises B's balance by exactly 10 and
lowers A's by `10 + 2 * (baseFee + minerFee)`. -/
theorem getBalanceOfAddress_spec :
    (∀ (st : ChainState) (a : String), getBalanceOfAddress st a = specBalance st a) ∧
    (∀ (st : ChainState) (A B : String) (b : Block) (ts1 ts2 : Int),
      A ≠ B →
      b.transactions =
        [{ fromAddress := some A, toAddress := B, amount := 5, timestamp := ts1 },
         { fromAddress := some A, toAddress := B, amount := 5, timestamp := ts2 }] →
      getBalanceOfAddress { st with chain := st.chain ++ [b] } B
          = getBalanceOfAddress st B + 10 ∧
      getBalanceOfAddress { st with chain := st.chain ++ [b] } A
          = getBalanceOfAddress st A - (10 + 2 * (baseFee + minerFee))) := by
  constructor
  · intro st a
    unfold getBalanceOfAddress specBalance
    rw [foldl_balance_chain, foldl_balance_mtx]
  · intro st A B b ts1 ts2 hAB htxs
    have key : ∀ a : String, getBalanceOfAddress { st with chain := st.chain ++ [b] } a
        = getBalanceOfAddress st a
          + (b.transactions.map (fun tx => txDelta a tx.fromAddress tx.toAddress tx.amount)).sum := by
      intro a
      unfold getBalanceOfAddress
      rw [foldl_balance_chain, foldl_balance_mtx, foldl_balance_chain, foldl_balance_mtx]
      simp only [List.map_append, List.sum_append, List.map_cons, List.map_nil, List.sum_cons,
        List.sum_nil]
      ring
    have hBA : (B == A) = false := by
      simp only [beq_eq_false_iff_ne, ne_eq]
      exact fun h => hAB h.symm
    have hAB' : ((some A : Option String) == some B) = false := by
      simp only [beq_eq_false_iff_ne, ne_eq, Option.some.injEq]
      exact hAB
    constructor
    · rw [key B, htxs]
      simp [txDelta, hAB]
    · rw [key A, htxs]
      simp [txDelta, hAB, Ne.symm hAB, baseFee, minerFee]
      ring

/-- Block holding exactly two transfers of 5 from "A" to "B". -/
def demoTransferBlock : Block :=
  (Block.mkJs envZero "T"
    [{ fromAddress := some "A", toAddress := "B", amount := 5, timestamp := 1 },
     { fromAddress := some "A", toAddress := "B", amount := 5, timestamp := 2 }]
    [] "0" []).1

/-- Fresh `envZero` ledger extended by the two-transfer block. -/
def demoTransferState : ChainState :=
  { ChainState.init envZero with
    chain := (ChainState.init envZero).chain ++ [demoTransferBlock] }

/-- Witness for C3 at a concrete input: B gains exactly 10, A loses
exactly 20, from the fresh ledger's allowance of 300. -/
theorem getBalanceOfAddress_spec_witness :
    getBalanceOfAddress (ChainState.init envZero) "A"
        = specBalance (ChainState.init envZero) "A" ∧
    (getBalanceOfAddress demoTransferState "B"
        = getBalanceOfAddress (ChainState.init envZero) "B" + 10 ∧
     getBalanceOfAddress demoTransferState "A"
        = getBalanceOfAddress (ChainState.init envZero) "A" - (10 + 2 * (baseFee + minerFee))) ∧
    getBalanceOfAddress demoTransferState "B" = 310 ∧
    getBalanceOfAddress demoTransferState "A" = 280 :=
  ⟨getBalanceOfAddress_spec.1 (ChainState.init envZero) "A",
   getBalanceOfAddress_spec.2 (ChainState.init envZero) "A" "B" demoTransferBlock 1 2
     (by decide) (by rfl),
   by rfl, by rfl⟩

/-- C4: for a transaction with both addresses present and a verifying
signature, `addTransaction` rejects with InsufficientBalance exactly
when the sender's derived balance is below `amount + baseFee +
minerFee`, leaving the mempool unchanged; otherwise it appends the
serialized transaction and its signature to the two mempool lists. -/
theorem addTransaction_balance_spec (env : Env) (st : ChainState) (tx : Transaction)
    (key f : String)
    (hf : tx.fromAddress = some f) (hf2 : f ≠ "") (ht : tx.toAddress ≠ "")
    (hsig : env.sign key (Transaction.calculateHash env tx) ≠ "")
    (hver : env.verify f (Transaction.calculateHash env tx)
      (env.sign key (Transaction.calculateHash env tx)) = true) :
    (getBalanceOfAddress st f < tx.amount + baseFee + minerFee →
      addTransaction env st tx key = (st, some .insufficientBalance)) ∧
    (tx.amount + baseFee + minerFee ≤ getBalanceOfAddress st f →
      addTransaction env st tx key =
        ({ st with mempool :=
            { transactions := st.mempool.transactions ++
                [{ fromAddress := f, toAddress := tx.toAddress, amount := tx.amount,
                   timestamp := tx.timestamp, hash := Transaction.calculateHash env tx }],
              signatures := st.mempool.signatures ++
                [env.sign key (Transaction.calculateHash env tx)] } }, none)) := by
  have hsig' : (env.sign key (Transaction.calculateHash env tx) == "") = false :=
    beq_eq_false_iff_ne.mpr hsig
  have hguard : (jsFalsyOpt (some f) || jsFalsy tx.toAddress) = false := by
    simp only [jsFalsyOpt, jsFalsy, Bool.or_eq_false_iff]
    exact ⟨beq_eq_false_iff_ne.mpr hf2, beq_eq_false_iff_ne.mpr ht⟩
  have hvalid : Transaction.isValid env tx (env.sign key (Transaction.calculateHash env tx))
      = .ok true := by
    simp only [Transaction.isValid, hf, hsig', Bool.false_eq_true, if_false, hver]
  constructor
  · intro hbal
    simp only [addTransaction, hguard, Bool.false_eq_true, if_false, hvalid, hf,
      Option.getD_some, if_pos hbal]
  · intro hbal
    simp only [addTransaction, hguard, Bool.false_eq_true, if_false, hvalid, hf,
      Option.getD_some, if_neg (Int.not_lt.mpr hbal)]

/-- Transaction attempting to send 500 from "Pa", far above the fresh
ledger's derived balance of 300. -/
def demoBigSpend : Transaction :=
  { fromAddress := some "Pa", toAddress := "X", amount := 500, timestamp := 1 }

/-- Witness for C4 at a concrete input: the oversized spend is rejected
with InsufficientBalance and the ledger state (hence the mempool) is
untouched. -/
theorem addTransaction_balance_spec_witness :
    getBalanceOfAddress (ChainState.init envId) "Pa" < demoBigSpend.amount + baseFee + minerFee ∧
    addTransaction envId (ChainState.init envId) demoBigSpend "a"
      = (ChainState.init envId, some .insufficientBalance) :=
  ⟨by decide,
   (addTransaction_balance_spec envId (ChainState.init envId) demoBigSpend "a" "Pa"
     (by rfl) (by decide) (by decide) (by decide) (by rfl)).1 (by decide)⟩

/-- Mining only rewrites `hash` and `nonce`: the transaction list, link
and timestamp of the block are untouched by the proof-of-work loop. -/
theorem mineBlockFuel_preserves (env : Env) :
    ∀ (fuel difficulty : Nat) (b : Block) (pool : List SigRecord)
      (b' : Block) (pool' : List SigRecord),
      Block.mineBlockFuel env fuel difficulty b pool = .ok (b', pool') →
      b'.transactions = b.transactions ∧ b'.previousHash = b.previousHash ∧
      b'.timestamp = b.timestamp := by
  intro fuel
  induction fuel with
  | zero =>
    intro difficulty b pool b' pool' h
    simp only [Block.mineBlockFuel] at h
    by_cases hc : hashMeetsDifficulty b.hash difficulty
    · rw [if_pos hc] at h
      cases h
      exact ⟨rfl, rfl, rfl⟩
    · rw [if_neg hc] at h
      cases h
  | succ n ih =>
    intro difficulty b pool b' pool' h
    simp only [Block.mineBlockFuel] at h
    by_cases hc : hashMeetsDifficulty b.hash difficulty
    · rw [if_pos hc] at h
      cases h
      exact ⟨rfl, rfl, rfl⟩
    · rw [if_neg hc] at h
      cases hu : Block.UpadateHash env b (b.nonce + 1) pool with
      | error e => rw [hu] at h; cases h
      | ok p =>
        rw [hu] at h
        have := ih difficulty _ _ b' pool' h
        cases p with
        | mk bU poolU =>
          simp only [Block.UpadateHash] at hu
          cases hfind : findSigRecord pool b.hash with
          | none => rw [hfind] at hu; cases hu
          | some r =>
            rw [hfind] at hu
            cases hu
            simpa using this

theorem foldl_minerFee (l : List Transaction) :
    l.foldl (fun acc _ => acc + minerFee) 0 = minerFee * (l.length : Int) := by
  have general : ∀ (l : List Transaction) (i : Int),
      l.foldl (fun acc _ => acc + minerFee) i = i + minerFee * (l.length : Int) := by
    intro l
    induction l with
    | nil => intro i; simp
    | cons x xs ih =>
      intro i
      simp only [List.foldl_cons, List.length_cons, ih]
      push_cast
      ring
  simpa using general l 0

/-- C5: a successful `minePendingTransactions(a)` takes at most 3
transactions from the mempool head, appends exactly one reward
transaction (`fromAddress = null`, `amount = miningReward + minerFee *
batchSize`) after them, appends the mined block to the chain, and drops
the processed entries from both mempool lists. -/
theorem minePendingTransactions_spec (env : Env) (st : ChainState) (addr : String)
    (now : Int) (fuel : Nat) (st' : ChainState)
    (h : minePendingTransactions env st addr now fuel = (st', none)) :
    ∃ mined : Block,
      st'.chain = st.chain ++ [mined] ∧
      mined.transactions =
        ((st.mempool.transactions.take 3).map
          (fun m => Transaction.mkJs (some m.fromAddress) m.toAddress m.amount now)) ++
        [rewardTransaction addr (st.mempool.transactions.take 3).length now] ∧
      (st.mempool.transactions.take 3).length ≤ 3 ∧
      st'.mempool.transactions = st.mempool.transactions.drop 3 ∧
      st'.mempool.signatures = st.mempool.signatures.drop 3 := by
  unfold minePendingTransactions at h
  cases hlast : st.chain.getLast? with
  | none =>
    rw [hlast] at h
    cases h
  | some latest =>
    rw [hlast] at h
    simp only at h
    cases hm : Block.mineBlockFuel env fuel chainDifficulty
        (Block.mkJs env (toString now)
          (((st.mempool.transactions.take 3).map
            (fun m => Transaction.mkJs (some m.fromAddress) m.toAddress m.amount now)) ++
           [{ fromAddress := none, toAddress := addr,
              amount := miningReward + ((st.mempool.transactions.take 3).map
                (fun m => Transaction.mkJs (some m.fromAddress) m.toAddress m.amount now)).foldl
                  (fun acc _ => acc + minerFee) 0,
              timestamp := now }])
          (((st.mempool.signatures.take 3).map some) ++ [none]) latest.hash st.pool).1
        (Block.mkJs env (toString now)
          (((st.mempool.transactions.take 3).map
            (fun m => Transaction.mkJs (some m.fromAddress) m.toAddress m.amount now)) ++
           [{ fromAddress := none, toAddress := addr,
              amount := miningReward + ((st.mempool.transactions.take 3).map
                (fun m => Transaction.mkJs (some m.fromAddress) m.toAddress m.amount now)).foldl
                  (fun acc _ => acc + minerFee) 0,
              timestamp := now }])
          (((st.mempool.signatures.take 3).map some) ++ [none]) latest.hash st.pool).2 with
    | error e =>
      rw [hm] at h
      cases h
    | ok p =>
      rw [hm] at h
      cases p with
      | mk mined poolOut =>
        cases h
        refine ⟨mined, rfl, ?_, ?_, rfl, rfl⟩
        · have hpres := mineBlockFuel_preserves env fuel chainDifficulty _ _ mined poolOut hm
          rw [hpres.1]
          simp only [Block.mkJs]
          congr 1
          simp only [rewardTransaction, Transaction.mk.injEq, true_and]
          rw [foldl_minerFee]
          simp
        · have := List.length_take_le 3 st.mempool.transactions
          omega

/-- Witness for C5 at a concrete input: on the fresh envZero ledger with
an empty mempool, mining produces a block holding exactly one reward
transaction of `miningReward` to "A", and "A"'s balance becomes
`300 + miningReward = 350`. -/
theorem minePendingTransactions_spec_witness :
    minePendingTransactions envZero (ChainState.init envZero) "A" 7 0
      = (demoMinedState, none) ∧
    (∃ mined : Block,
      demoMinedState.chain = (ChainState.init envZero).chain ++ [mined] ∧
      mined.transactions =
        (((ChainState.init envZero).mempool.transactions.take 3).map
          (fun m => Transaction.mkJs (some m.fromAddress) m.toAddress m.amount 7)) ++
        [rewardTransaction "A" ((ChainState.init envZero).mempool.transactions.take 3).length 7] ∧
      ((ChainState.init envZero).mempool.transactions.take 3).length ≤ 3 ∧
      demoMinedState.mempool.transactions = (ChainState.init envZero).mempool.transactions.drop 3 ∧
      demoMinedState.mempool.signatures = (ChainState.init envZero).mempool.signatures.drop 3) ∧
    (demoMinedState.chain.map (fun b => b.transactions))
      = [[], [{ fromAddress := none, toAddress := "A", amount := 50, timestamp := 7 }]] ∧
    getBalanceOfAddress demoMinedState "A" = 300 + miningReward :=
  ⟨by rfl,
   minePendingTransactions_spec envZero (ChainState.init envZero) "A" 7 0 demoMinedState
     (by rfl),
   by rfl, by rfl⟩

/-- Transaction claiming sender identity "Pa", to be signed with the
non-matching key "b" (whose public identity is "Pb"). -/
def demoMismatch : Transaction :=
  { fromAddress := some "Pa", toAddress := "X", amount := 1, timestamp := 1 }

/-- C6 counterexample: submitting a transaction with a mismatched key
through the canonical `addTransaction` does NOT fail with SigningError —
the signing step succeeds unconditionally (no identity check exists on
that path) and the later verification failure throws InvalidTransaction
("Cannot add invalid transaction to the chain"). -/
theorem addTransaction_mismatched_key_not_signingError :
    addTransaction envId (ChainState.init envId) demoMismatch "b"
      = (ChainState.init envId, some .invalidTransaction) ∧
    (some JsError.invalidTransaction : Option JsError) ≠ some JsError.signingError :=
  ⟨by rfl, by decide⟩

/-- C6 amended: the SigningError identity check lives only in the earlier
variant's `Transaction.signTransaction` (blockChain4.js), where a key
whose public identity differs from `fromAddress` always fails with
SigningError; on the canonical `addTransaction` path a mismatched key is
rejected later, by signature verification, as InvalidTransaction. -/
theorem signing_mismatch_amended :
    (∀ (env : Env) (tx : TransactionV4) (key : String),
      tx.fromAddress ≠ some (env.pub key) →
      TransactionV4.signTransaction env tx key = .error .signingError) ∧
    (∀ (env : Env) (st : ChainState) (tx : Transaction) (key f : String),
      tx.fromAddress = some f → f ≠ "" → tx.toAddress ≠ "" →
      env.sign key (Transaction.calculateHash env tx) ≠ "" →
      env.verify f (Transaction.calculateHash env tx)
        (env.sign key (Transaction.calculateHash env tx)) = false →
      addTransaction env st tx key = (st, some .invalidTransaction)) := by
  constructor
  · intro env tx key hne
    unfold TransactionV4.signTransaction
    have : (some (env.pub key) != tx.fromAddress) = true := by
      simp only [bne_iff_ne, ne_eq]
      exact fun h => hne h.symm
    rw [if_pos this]
  · intro env st tx key f hf hf2 ht hsig hver
    have hsig' : (env.sign key (Transaction.calculateHash env tx) == "") = false :=
      beq_eq_false_iff_ne.mpr hsig
    have hguard : (jsFalsyOpt (some f) || jsFalsy tx.toAddress) = false := by
      simp only [jsFalsyOpt, jsFalsy, Bool.or_eq_false_iff]
      exact ⟨beq_eq_false_iff_ne.mpr hf2, beq_eq_false_iff_ne.mpr ht⟩
    have hvalid : Transaction.isValid env tx (env.sign key (Transaction.calculateHash env tx))
        = .ok false := by
      simp only [Transaction.isValid, hf, hsig', Bool.false_eq_true, if_false, hver]
    simp only [addTransaction, hf, hguard, Bool.false_eq_true, if_false, hvalid]

/-- Unsigned earlier-variant transaction claiming sender "Pa". -/
def demoMismatchV4 : TransactionV4 :=
  { fromAddress := some "Pa", toAddress := "X", amount := 1, timestamp := 1,
    signature := none }

/-- Witness for the amended C6 at concrete inputs: key "b" (public
identity "Pb") against claimed sender "Pa". -/
theorem signing_mismatch_amended_witness :
    TransactionV4.signTransaction envId demoMismatchV4 "b" = .error .signingError ∧
    addTransaction envId (ChainState.init envId) demoMismatch "b"
      = (ChainState.init envId, some .invalidTransaction) :=
  ⟨signing_mismatch_amended.1 envId demoMismatchV4 "b" (by decide),
   signing_mismatch_amended.2 envId (ChainState.init envId) demoMismatch "b" "Pa"
     (by rfl) (by decide) (by decide) (by decide) (by rfl)⟩

/-- Block built (in the identity-hash world, which makes the hashed
payloads visible) with one real signature followed by a null one —
exactly the signature shape `minePendingTransactions` produces for a
block with one signed transaction plus the reward. -/
def demoBlockMixed : Block × List SigRecord :=
  Block.mkJs envId "T" [] [some "s", none] "P" []

/-- C7 counterexample: immediately after construction the stored hash
does NOT equal `calculateHash()` — the constructor hashed the unfiltered
signature array ("s," followed by the nonce), while `calculateHash`
recomputes over the null-filtered stored signatures ("s" followed by the
nonce). -/
theorem block_hash_constructor_counterexample :
    demoBlockMixed.1.hash = "T[]P\x22s,0\x22" ∧
    Block.calculateHash envId demoBlockMixed.1 demoBlockMixed.2 = .ok "T[]P\x22s0\x22" ∧
    demoBlockMixed.1.hash ≠ "T[]P\x22s0\x22" :=
  ⟨by rfl, by rfl, by decide⟩

theorem findSigRecord_append_fresh (pool : List SigRecord) (rec : SigRecord)
    (h : ∀ r ∈ pool, r.blockHash ≠ rec.blockHash) :
    findSigRecord (pool ++ [rec]) rec.blockHash = some rec := by
  induction pool with
  | nil => simp [findSigRecord, List.find?]
  | cons q rest ih =>
    have hq : (q.blockHash == rec.blockHash) = false :=
      beq_eq_false_iff_ne.mpr (h q (List.mem_cons_self q rest))
    simp only [findSigRecord, List.cons_append, List.find?_cons, hq]
    exact ih (fun r hr => h r (List.mem_cons_of_mem q hr))

theorem find_replaceFirstHash (pool : List SigRecord) (old new : String) (r : SigRecord)
    (hfound : findSigRecord pool old = some r)
    (hfresh : ∀ q ∈ pool, q.blockHash ≠ new) :
    findSigRecord (replaceFirstHash pool old new) new = some { r with blockHash := new } := by
  induction pool with
  | nil => simp [findSigRecord, List.find?] at hfound
  | cons q rest ih =>
    by_cases hq : (q.blockHash == old) = true
    · simp only [replaceFirstHash, hq, if_true]
      simp only [findSigRecord, List.find?_cons, beq_self_eq_true]
      simp only [findSigRecord, List.find?_cons, hq] at hfound
      cases hfound
      rfl
    · have hq' : (q.blockHash == old) = false := by
        cases hb : (q.blockHash == old) with
        | true => exact absurd hb hq
        | false => rfl
      simp only [replaceFirstHash, hq', Bool.false_eq_true, if_false]
      have hqnew : (q.blockHash == new) = false :=
        beq_eq_false_iff_ne.mpr (hfresh q (List.mem_cons_self q rest))
      simp only [findSigRecord, List.find?_cons, hqnew]
      simp only [findSigRecord, List.find?_cons, hq'] at hfound
      exact ih hfound (fun p hp => hfresh p (List.mem_cons_of_mem q hp))

/-- C7 amended: the invariant `hash = calculateHash()` holds right after
construction only when the unfiltered signature array and its
null-filtered form coerce to the same string (as for the genesis block's
empty list); and it is restored by each `UpadateHash` step of mining —
so it holds after any `mineBlock` call that performs at least one nonce
update — provided the updated hash does not collide with another stored
record. -/
theorem block_hash_invariant_amended :
    (∀ (env : Env) (ts : String) (txs : List Transaction) (sigs : List (Option String))
       (prev : String) (pool : List SigRecord),
      jsArrayStrOpt sigs = jsArrayStr (sigs.filterMap id) →
      (∀ r ∈ pool, r.blockHash ≠ (Block.mkJs env ts txs sigs prev pool).1.hash) →
      Block.calculateHash env (Block.mkJs env ts txs sigs prev pool).1
          (Block.mkJs env ts txs sigs prev pool).2
        = .ok (Block.mkJs env ts txs sigs prev pool).1.hash) ∧
    (∀ (env : Env) (b : Block) (newNonce : Nat) (pool : List SigRecord)
       (b' : Block) (pool' : List SigRecord),
      Block.UpadateHash env b newNonce pool = .ok (b', pool') →
      (∀ r ∈ pool, r.blockHash ≠ b'.hash) →
      Block.calculateHash env { b' with nonce := newNonce } pool' = .ok b'.hash) := by
  constructor
  · intro env ts txs sigs prev pool hstr hfresh
    simp only [Block.mkJs] at hfresh ⊢
    simp only [Block.calculateHash]
    rw [findSigRecord_append_fresh _ _ hfresh]
    dsimp only
    rw [← hstr]
  · intro env b newNonce pool b' pool' h hfresh
    simp only [Block.UpadateHash] at h
    cases hfind : findSigRecord pool b.hash with
    | none => rw [hfind] at h; cases h
    | some r =>
      rw [hfind] at h
      cases h
      simp only [Block.calculateHash]
      rw [find_replaceFirstHash pool b.hash _ r hfind hfresh]

/-- Result of one `UpadateHash(1)` step on the mixed-signature demo
block. -/
def demoUpdatedBlock : Block := { demoBlockMixed.1 with hash := "T[]P\x22s1\x22" }

/-- Signature pool after that `UpadateHash` step. -/
def demoUpdatedPool : List SigRecord :=
  [{ blockHash := "T[]P\x22s1\x22", signatures := ["s"] }]

/-- Witness for the amended C7 at concrete inputs: an all-non-null
signature list keeps the invariant at construction, and the
`UpadateHash` step restores it on the mixed-signature block. -/
theorem block_hash_invariant_amended_witness :
    Block.calculateHash envId (Block.mkJs envId "T" [] [some "s"] "P" []).1
        (Block.mkJs envId "T" [] [some "s"] "P" []).2
      = .ok (Block.mkJs envId "T" [] [some "s"] "P" []).1.hash ∧
    Block.UpadateHash envId demoBlockMixed.1 1 demoBlockMixed.2
      = .ok (demoUpdatedBlock, demoUpdatedPool) ∧
    Block.calculateHash envId { demoUpdatedBlock with nonce := 1 } demoUpdatedPool
      = .ok demoUpdatedBlock.hash :=
  ⟨block_hash_invariant_amended.1 envId "T" [] [some "s"] "P" [] (by rfl) (by decide),
   by rfl,
   block_hash_invariant_amended.2 envId demoBlockMixed.1 1 demoBlockMixed.2
     demoUpdatedBlock demoUpdatedPool (by rfl) (by decide)⟩

/-- C8: the constructor's Bloom filter receives every embedded
transaction's content hash, so — for any `test` with the bloom-filter
library's no-false-negative contract — every embedded transaction tests
positive against its block's filter, `searchTransaction(h)` finds a
transaction hashing to `h` whenever some confirmed block contains one,
and returns null when none does. -/
theorem bloom_search_spec :
    (∀ (env : Env) (ts : String) (txs : List Transaction) (sigs : List (Option String))
       (prev : String) (pool : List SigRecord),
      (Block.mkJs env ts txs sigs prev pool).1.bloomInserted
        = txs.map (Transaction.calculateHash env)) ∧
    (∀ (test : List String → String → Bool) (env : Env) (b : Block) (tx : Transaction),
      (∀ l x, x ∈ l → test l x = true) →
      b.bloomInserted = b.transactions.map (Transaction.calculateHash env) →
      tx ∈ b.transactions →
      test b.bloomInserted (Transaction.calculateHash env tx) = true) ∧
    (∀ (test : List String → String → Bool) (env : Env) (chain : List Block) (h : String),
      (∀ l x, x ∈ l → test l x = true) →
      (∀ b ∈ chain, b.bloomInserted = b.transactions.map (Transaction.calculateHash env)) →
      ((∃ b ∈ chain, ∃ tx ∈ b.transactions, Transaction.calculateHash env tx = h) →
        ∃ tx, searchTransaction test env chain h = some tx ∧
          Transaction.calculateHash env tx = h) ∧
      ((∀ b ∈ chain, ∀ tx ∈ b.transactions, Transaction.calculateHash env tx ≠ h) →
        searchTransaction test env chain h = none)) := by
  refine ⟨?_, ?_, ?_⟩
  · intro env ts txs sigs prev pool
    simp [Block.mkJs]
  · intro test env b tx hNFN hWF hmem
    exact hNFN _ _ (hWF ▸ List.mem_map_of_mem (Transaction.calculateHash env) hmem)
  · intro test env chain h hNFN
    induction chain with
    | nil =>
      intro hWF
      constructor
      · rintro ⟨b, hb, -⟩
        simp at hb
      · intro _
        rfl
    | cons b rest ih =>
      intro hWF
      have hWFb : b.bloomInserted = b.transactions.map (Transaction.calculateHash env) :=
        hWF b (List.mem_cons_self b rest)
      have hWFrest : ∀ q ∈ rest, q.bloomInserted = q.transactions.map (Transaction.calculateHash env) :=
        fun q hq => hWF q (List.mem_cons_of_mem b hq)
      have ihr := ih hWFrest
      constructor
      · rintro ⟨b0, hb0, tx0, htx0, hhash0⟩
        by_cases hin : ∃ tx ∈ b.transactions, Transaction.calculateHash env tx = h
        · obtain ⟨tx1, htx1, hhash1⟩ := hin
          have htest : test b.bloomInserted h = true := by
            rw [← hhash1]
            exact hNFN _ _ (hWFb ▸ List.mem_map_of_mem (Transaction.calculateHash env) htx1)
          have hsome : (b.transactions.find?
              (fun tx => Transaction.calculateHash env tx == h)).isSome := by
            rw [List.find?_isSome]
            exact ⟨tx1, htx1, beq_iff_eq.mpr hhash1⟩
          obtain ⟨txf, hfind⟩ := Option.isSome_iff_exists.mp hsome
          have hp : Transaction.calculateHash env txf = h := by
            have hfs := List.find?_some hfind
            simpa using hfs
          refine ⟨txf, ?_, hp⟩
          simp only [searchTransaction, htest, if_true, hfind]
        · have hrest : ∃ q ∈ rest, ∃ tx ∈ q.transactions, Transaction.calculateHash env tx = h := by
            rcases List.mem_cons.mp hb0 with hb0 | hb0
            · exact absurd ⟨tx0, hb0 ▸ htx0, hhash0⟩ hin
            · exact ⟨b0, hb0, tx0, htx0, hhash0⟩
          have hnone : b.transactions.find?
              (fun tx => Transaction.calculateHash env tx == h) = none := by
            rw [List.find?_eq_none]
            intro tx htx
            simpa using fun hh => hin ⟨tx, htx, hh⟩
          by_cases htest : test b.bloomInserted h = true
          · obtain ⟨txr, hsr, hhr⟩ := ihr.1 hrest
            refine ⟨txr, ?_, hhr⟩
            simp only [searchTransaction, htest, if_true, hnone]
            exact hsr
          · obtain ⟨txr, hsr, hhr⟩ := ihr.1 hrest
            refine ⟨txr, ?_, hhr⟩
            simp only [searchTransaction]
            rw [if_neg htest]
            exact hsr
      · intro habs
        have hnone : b.transactions.find?
            (fun tx => Transaction.calculateHash env tx == h) = none := by
          rw [List.find?_eq_none]
          intro tx htx
          simpa using habs b (List.mem_cons_self b rest) tx htx
        have hrest := ihr.2 (fun q hq tx htx =>
          habs q (List.mem_cons_of_mem b hq) tx htx)
        by_cases htest : test b.bloomInserted h = true
        · simp only [searchTransaction, htest, if_true, hnone]
          exact hrest
        · simp only [searchTransaction]
          rw [if_neg htest]
          exact hrest

/-- Single-transaction block for the C8 witness, in the identity-hash
world. -/
def demoBloomBlock : Block :=
  (Block.mkJs envId "T"
    [{ fromAddress := some "a", toAddress := "b", amount := 1, timestamp := 0 }]
    [] "P" []).1

/-- Witness for C8 at concrete inputs, with the trivially sound test
function (every query positive — an over-approximating filter with no
false negatives). -/
theorem bloom_search_spec_witness :
    demoBloomBlock.bloomInserted = ["ab10"] ∧
    (∃ tx, searchTransaction (fun _ _ => true) envId [demoBloomBlock] "ab10" = some tx ∧
      Transaction.calculateHash envId tx = "ab10") ∧
    searchTransaction (fun _ _ => true) envId [demoBloomBlock] "zz" = none :=
  ⟨by rfl,
   (bloom_search_spec.2.2 (fun _ _ => true) envId [demoBloomBlock] "ab10"
      (fun _ _ _ => rfl) (by decide)).1
      ⟨demoBloomBlock, by decide,
       { fromAddress := some "a", toAddress := "b", amount := 1, timestamp := 0 },
       by decide, by rfl⟩,
   (bloom_search_spec.2.2 (fun _ _ => true) envId [demoBloomBlock] "zz"
      (fun _ _ _ => rfl) (by decide)).2 (by decide)⟩

/-- Wallet owning address "W" with an empty local list. -/
def demoWallet : LightWallet := { address := "W", transactions := [] }

/-- Transaction naming neither "W" as sender nor as recipient. -/
def demoForeignTx : Transaction :=
  { fromAddress := some "X", toAddress := "Y", amount := 1, timestamp := 0 }

/-- C9 counterexample: `syncTransaction` appends a transaction that names
this wallet neither as sender nor as recipient — the canonical method
performs no address filtering, so the local list does change. -/
theorem syncTransaction_counterexample :
    (demoWallet.syncTransaction demoForeignTx).transactions = [demoForeignTx] ∧
    demoForeignTx.fromAddress ≠ some demoWallet.address ∧
    demoForeignTx.toAddress ≠ demoWallet.address ∧
    (demoWallet.syncTransaction demoForeignTx).transactions ≠ demoWallet.transactions :=
  ⟨by rfl, by decide, by decide, by decide⟩

/-- C9 amended: the address filter exists only in the earlier variant's
`receiveTransaction`, which appends iff the transaction names the
wallet's address as sender or recipient; the canonical `syncTransaction`
appends unconditionally (its caller in main.js does the filtering). -/
theorem syncTransaction_amended :
    (∀ (w : LightWallet) (tx : Transaction),
      (w.syncTransaction tx).transactions = w.transactions ++ [tx]) ∧
    (∀ (w : LightWalletV4) (tx : TransactionV4),
      (w.receiveTransaction tx).transactions =
        if tx.toAddress == w.address || tx.fromAddress == some w.address
        then w.transactions ++ [tx] else w.transactions) := by
  constructor
  · intro w tx
    rfl
  · intro w tx
    unfold LightWalletV4.receiveTransaction
    by_cases hc : (tx.toAddress == w.address || tx.fromAddress == some w.address) = true
    · rw [if_pos hc, if_pos hc]
    · rw [if_neg hc, if_neg hc]

/-- Ledger operation of the mempool state machine: one `addTransaction`
call or one `minePendingTransactions` call with its ambient inputs. -/
inductive LedgerOp where
  | add (tx : Transaction) (key : String)
  | mine (addr : String) (now : Int) (fuel : Nat)

/-- State after one ledger operation; when the call throws, the resulting
persisted state is the one the operation left behind. -/
def applyOp (env : Env) (st : ChainState) : LedgerOp → ChainState
  | .add tx key => (addTransaction env st tx key).1
  | .mine addr now fuel => (minePendingTransactions env st addr now fuel).1

/-- State after a sequence of ledger operations. -/
def execOps (env : Env) : List LedgerOp → ChainState → ChainState
  | [], st => st
  | op :: ops, st => execOps env ops (applyOp env st op)

theorem addTransaction_preserves_lengths (env : Env) (st : ChainState)
    (tx : Transaction) (key : String)
    (h : st.mempool.transactions.length = st.mempool.signatures.length) :
    (addTransaction env st tx key).1.mempool.transactions.length
      = (addTransaction env st tx key).1.mempool.signatures.length := by
  unfold addTransaction
  dsimp only
  split
  · exact h
  · split
    · exact h
    · exact h
    · split
      · exact h
      · simp only [List.length_append, List.length_cons, List.length_nil, h]

theorem minePendingTransactions_preserves_lengths (env : Env) (st : ChainState)
    (addr : String) (now : Int) (fuel : Nat)
    (h : st.mempool.transactions.length = st.mempool.signatures.length) :
    (minePendingTransactions env st addr now fuel).1.mempool.transactions.length
      = (minePendingTransactions env st addr now fuel).1.mempool.signatures.length := by
  unfold minePendingTransactions
  cases hlast : st.chain.getLast? with
  | none => exact h
  | some latest =>
    simp only
    cases hm : Block.mineBlockFuel env fuel chainDifficulty
        (Block.mkJs env (toString now)
          (((st.mempool.transactions.take 3).map
            (fun m => Transaction.mkJs (some m.fromAddress) m.toAddress m.amount now)) ++
           [{ fromAddress := none, toAddress := addr,
              amount := miningReward + ((st.mempool.transactions.take 3).map
                (fun m => Transaction.mkJs (some m.fromAddress) m.toAddress m.amount now)).foldl
                  (fun acc _ => acc + minerFee) 0,
              timestamp := now }])
          (((st.mempool.signatures.take 3).map some) ++ [none]) latest.hash st.pool).1
        (Block.mkJs env (toString now)
          (((st.mempool.transactions.take 3).map
            (fun m => Transaction.mkJs (some m.fromAddress) m.toAddress m.amount now)) ++
           [{ fromAddress := none, toAddress := addr,
              amount := miningReward + ((st.mempool.transactions.take 3).map
                (fun m => Transaction.mkJs (some m.fromAddress) m.toAddress m.amount now)).foldl
                  (fun acc _ => acc + minerFee) 0,
              timestamp := now }])
          (((st.mempool.signatures.take 3).map some) ++ [none]) latest.hash st.pool).2 with
    | error e => exact h
    | ok p =>
      cases p with
      | mk mined poolOut =>
        simp only [List.length_drop, h]

/-- C10: in every state reachable from the fresh ledger (empty mempool)
by any sequence of `addTransaction` and `minePendingTransactions` calls,
the pending-transactions list and the parallel signatures list have the
same length, so positional indexing pairs each transaction with its own
signature. -/
theorem mempool_parallel_lengths (env : Env) (ops : List LedgerOp) :
    (execOps env ops (ChainState.init env)).mempool.transactions.length
      = (execOps env ops (ChainState.init env)).mempool.signatures.length := by
  have general : ∀ (ops : List LedgerOp) (st : ChainState),
      st.mempool.transactions.length = st.mempool.signatures.length →
      (execOps env ops st).mempool.transactions.length
        = (execOps env ops st).mempool.signatures.length := by
    intro ops
    induction ops with
    | nil => intro st h; exact h
    | cons op rest ih =>
      intro st h
      cases op with
      | add tx key =>
        exact ih _ (addTransaction_preserves_lengths env st tx key h)
      | mine addr now fuel =>
        exact ih _ (minePendingTransactions_preserves_lengths env st addr now fuel h)
  exact general ops (ChainState.init env) (by rfl)
